import Mathlib

/-!
Verification of the devkit command-discovery / validation / templating core.

Shallow embedding of:
  * crates/devkit-tasks/src/template.rs        (resolve_template)
  * crates/devkit-core/src/validation.rs       (validate_command_dependencies,
                                                dependency_exists, detect_cycle)
  * crates/devkit-core/src/discovery.rs        (DiscoveryEngine)
  * crates/devkit-core/src/discovery/makefile_provider.rs
  * crates/devkit-core/src/discovery/script_provider.rs

Rust strings are modelled as Lean `String` / `List Char`; `HashMap` iteration
is modelled as association-list order (the claims proved below are insensitive
to the particular iteration order).  Rust's `str::len` (a byte count) is
modelled by summing `Char.utf8Size`.
-/

/-- Unicode-whitespace trim from the left, as Rust `str::trim_start`. -/
def trimLeftL (s : List Char) : List Char := s.dropWhile Char.isWhitespace

/-- Trim from both ends, as Rust `str::trim`. -/
def trimL (s : List Char) : List Char :=
  ((s.dropWhile Char.isWhitespace).reverse.dropWhile Char.isWhitespace).reverse

/-- UTF-8 byte length of a character list, matching Rust `str::len`. -/
def utf8Len (s : List Char) : Nat := s.foldl (fun n c => n + c.utf8Size) 0

/-- Split on newline characters, keeping a (possibly empty) final segment. -/
def splitLinesAux : List Char → List Char → List (List Char)
  | [], acc => [acc.reverse]
  | c :: cs, acc =>
    if c = '\n' then acc.reverse :: splitLinesAux cs [] else splitLinesAux cs (c :: acc)

/-- Rust `str::lines`: newline-separated segments, no trailing empty line,
trailing carriage returns stripped. -/
def rustLines (s : List Char) : List (List Char) :=
  let ls := splitLinesAux s []
  let ls := if ls.getLast? = some [] then ls.dropLast else ls
  ls.map (fun l => if l.getLast? = some '\r' then l.dropLast else l)

/-- Replace every (leftmost, non-overlapping) occurrence of `pat` by `rep`,
as Rust `str::replace`; fuelled, each step consumes at least one character. -/
def replaceAllAux (pat rep : List Char) : Nat → List Char → List Char
  | 0, s => s
  | f + 1, s =>
    match s with
    | [] => []
    | c :: cs =>
      if (!pat.isEmpty) && pat.isPrefixOf s then rep ++ replaceAllAux pat rep f (s.drop pat.length)
      else c :: replaceAllAux pat rep f cs

/-- Rust `str::replace` on Lean strings. -/
def strReplace (s pat rep : String) : String :=
  String.mk (replaceAllAux pat.data rep.data (s.data.length + 1) s.data)

/-- Scanner for the regex `\x7b([^\x7d]+)\x7d` used by `resolve_template` and
`extract_vars`: leftmost non-overlapping matches; the returned lists are the
capture groups (placeholder names), in order.  `state = some acc` means a
brace has been opened and `acc` holds the (reversed) characters read since. -/
def scanBraceAux : List Char → Option (List Char) → List (List Char)
  | [], _ => []
  | c :: cs, none =>
    if c = '\x7b' then scanBraceAux cs (some []) else scanBraceAux cs none
  | c :: cs, some acc =>
    if c = '\x7d' then
      match acc with
      | [] => scanBraceAux cs none
      | _ => acc.reverse :: scanBraceAux cs none
    else scanBraceAux cs (some (c :: acc))

/-- All `\x7bname\x7d` placeholder names of a template, in order of matching. -/
def placeholders (s : String) : List String :=
  (scanBraceAux s.data none).map String.mk

/-- Variable lookup with the precedence of `resolve_template`: explicit
variables first, then environment variables. -/
def lookup2 (vars env : List (String × String)) (name : String) : Option String :=
  match List.lookup name vars with
  | some v => some v
  | none => List.lookup name env

/-- One iteration of the capture loop of `resolve_template`: a resolvable
placeholder is substituted (everywhere) in the working string, an unresolvable
one is appended to the missing list. -/
def resolveStep (vars env : List (String × String)) (acc : String × List String)
    (name : String) : String × List String :=
  match lookup2 vars env name with
  | some v => (strReplace acc.1 ("\x7b" ++ name ++ "\x7d") v, acc.2)
  | none => (acc.1, acc.2 ++ [name])

/-- `resolve_template` from devkit-tasks/src/template.rs. -/
def resolve_template (template : String) (vars env : List (String × String)) :
    Except String String :=
  let r := (placeholders template).foldl (resolveStep vars env) (template, [])
  if r.2.isEmpty then Except.ok r.1
  else
    Except.error ("Missing template variables: " ++ String.intercalate ", " r.2 ++
      ". Set them in your config or environment.")

/-- The placeholders of a template that resolve neither in the explicit table
nor in the environment, in capture order (duplicates kept). -/
def missingOf (template : String) (vars env : List (String × String)) : List String :=
  (placeholders template).filter (fun n => (lookup2 vars env n).isNone)

/-- The success value of `resolve_template`: every resolvable placeholder
substituted into the template, in capture order. -/
def substAll (template : String) (vars env : List (String × String)) : String :=
  (placeholders template).foldl
    (fun s n =>
      match lookup2 vars env n with
      | some v => strReplace s ("\x7b" ++ n ++ "\x7d") v
      | none => s)
    template

/-! ## Makefile provider (discovery/makefile_provider.rs) -/

/-- Command categories from discovery.rs. -/
inductive Category where
  | Build | Test | Quality | Services | Database | Dev | Deploy | Git
  | Dependencies | Scripts | Other
deriving DecidableEq, Repr

/-- `Category::emoji`. -/
def Category.emoji : Category → String
  | .Build => "📦"
  | .Test => "🧪"
  | .Quality => "✨"
  | .Services => "🐳"
  | .Database => "🗄️"
  | .Dev => "🔥"
  | .Deploy => "🚀"
  | .Git => "🌿"
  | .Dependencies => "📚"
  | .Scripts => "📝"
  | .Other => "🔧"

/-- Substring test, Rust `str::contains(&str)`. -/
def infixOfL (pat : List Char) : List Char → Bool
  | [] => pat.isEmpty
  | c :: cs => pat.isPrefixOf (c :: cs) || infixOfL pat cs

/-- Rust `str::split_whitespace().next()`: the first maximal run of
non-whitespace characters, if any. -/
def firstWord (s : List Char) : Option (List Char) :=
  let w := (s.dropWhile Char.isWhitespace).takeWhile (fun c => !c.isWhitespace)
  if w.isEmpty then none else some w

/-- The loop body of `MakefileProvider::parse_makefile_targets`, one step per
line, threading `current_comment`. -/
def parseTargetsAux : List (List Char) → Option String → List (String × Option String)
  | [], _ => []
  | line :: rest, curComment =>
    let trimmed := trimL line
    if trimmed.isEmpty then parseTargetsAux rest none
    else if (!line.isEmpty) && (line.head? = some '\t' || line.head? = some ' ') then
      parseTargetsAux rest curComment
    else if trimmed.head? = some '#' then
      let comment := trimL (trimmed.dropWhile (· = '#'))
      if comment.isEmpty then parseTargetsAux rest curComment
      else parseTargetsAux rest (some (String.mk comment))
    else if trimmed.contains ':' then
      let targetPart := trimmed.takeWhile (· ≠ ':')
      if targetPart.head? = some '.' || targetPart.head? = some '_' then
        parseTargetsAux rest none
      else if infixOfL ['$', '('] targetPart || infixOfL ['$', '\x7b'] targetPart then
        parseTargetsAux rest none
      else
        match firstWord targetPart with
        | some name => (String.mk name, curComment) :: parseTargetsAux rest none
        | none => parseTargetsAux rest curComment
    else parseTargetsAux rest none

/-- `MakefileProvider::parse_makefile_targets`. -/
def parse_makefile_targets (content : String) : List (String × Option String) :=
  parseTargetsAux (rustLines content.data) none

/-- `MakefileProvider::categorize_target` (Rust `contains` is a substring
test). -/
def categorize_target (name : String) : Category :=
  let has := fun (p : String) => infixOfL p.data name.data
  if has "build" || has "compile" then .Build
  else if has "test" then .Test
  else if has "lint" || has "check" then .Quality
  else if has "deploy" || has "release" || has "publish" then .Deploy
  else if has "dev" || has "serve" || has "watch" then .Dev
  else if has "clean" || has "install" || has "setup" then .Other
  else .Scripts

/-- A discovered command's data fields (discovery.rs `DiscoveredCommand`;
the execution closure and the constant `Global` scope are not modelled). -/
structure DiscoveredCommand where
  id : String
  label : String
  description : String
  source : String
  category : Category
deriving DecidableEq, Repr

/-- The command list built by `MakefileProvider::discover` from the contents
of the chosen build file. -/
def makefileCommands (content : String) : List DiscoveredCommand :=
  (parse_makefile_targets content).map (fun t =>
    let category := categorize_target t.1
    { id := "make." ++ t.1
      label := category.emoji ++ " " ++ t.1
      description := t.2.getD ("Run make target: " ++ t.1)
      source := "Makefile"
      category := category })

/-- Amended build-file target rule, per line: a non-blank, non-indented,
non-comment line containing a colon is a target when the text before the
first colon does not start with a dot or underscore and holds no variable
reference; its name is the first whitespace-separated word of that text.
There is no exclusion of lines whose equals sign precedes the colon. -/
def targetNameOfLine (line : List Char) : Option (List Char) :=
  let trimmed := trimL line
  if trimmed.isEmpty then none
  else if (!line.isEmpty) && (line.head? = some '\t' || line.head? = some ' ') then none
  else if trimmed.head? = some '#' then none
  else if trimmed.contains ':' then
    let targetPart := trimmed.takeWhile (· ≠ ':')
    if targetPart.head? = some '.' || targetPart.head? = some '_' then none
    else if infixOfL ['$', '('] targetPart || infixOfL ['$', '\x7b'] targetPart then none
    else firstWord targetPart
  else none

/-! ## Script provider (discovery/script_provider.rs) -/

/-- Rust `str::trim_start_matches(pat)`: repeatedly strip a leading
occurrence of `pat`; fuelled, each step consumes at least one character. -/
def stripRepAux (pat : List Char) : Nat → List Char → List Char
  | 0, s => s
  | f + 1, s =>
    if (!pat.isEmpty) && pat.isPrefixOf s then stripRepAux pat f (s.drop pat.length) else s

/-- Rust `str::trim_start_matches`. -/
def trimStartMatches (s pat : List Char) : List Char :=
  stripRepAux pat (s.length + 1) s

/-- The loop body of `ScriptProvider::extract_description`, one step per
line of the (already truncated) line list. -/
def extractDescAux : List (List Char) → Option String
  | [] => none
  | line :: rest =>
    let trimmed := trimL line
    if ("# Description:".data).isPrefixOf trimmed then
      some (String.mk (trimL (trimStartMatches trimmed ("# Description:".data))))
    else if (("# ".data).isPrefixOf trimmed) && (!("#!".data).isPrefixOf trimmed) then
      let comment := trimL (trimStartMatches trimmed ("# ".data))
      if (!comment.isEmpty) && (!(comment.head? = some '!')) &&
          (!infixOfL "bin/".data comment) && (!infixOfL "usr/".data comment) &&
          (10 < utf8Len comment) && (utf8Len comment < 100) then
        some (String.mk comment)
      else extractDescAux rest
    else extractDescAux rest

/-- `ScriptProvider::extract_description`: scan the first 20 lines of the
script for a usable description comment. -/
def extract_description (content : String) : Option String :=
  extractDescAux ((rustLines content.data).take 20)

/-! ## Discovery engine (discovery.rs) -/

/-- A command provider: `is_available` plus a fallible `discover`
(discovery.rs trait `CommandProvider`). -/
structure Provider (Ctx Cmd : Type) where
  is_available : Ctx → Bool
  discover : Ctx → Except String (List Cmd)

/-- `DiscoveryEngine`: providers in registration order plus optional cache. -/
structure DiscoveryEngine (Ctx Cmd : Type) where
  providers : List (Provider Ctx Cmd)
  cache : Option (List Cmd)

/-- The cache-population loop of `DiscoveryEngine::discover`: for each
provider in registration order, if available and `discover` succeeds, append
its results; a failing provider contributes nothing. -/
def computeCommands {Ctx Cmd : Type} (ps : List (Provider Ctx Cmd)) (ctx : Ctx) :
    List Cmd :=
  ps.foldl
    (fun acc p =>
      if p.is_available ctx then
        match p.discover ctx with
        | Except.ok cs => acc ++ cs
        | Except.error _ => acc
      else acc)
    []

/-- `DiscoveryEngine::discover`: fill the cache on first use, then serve it. -/
def DiscoveryEngine.discover {Ctx Cmd : Type} (e : DiscoveryEngine Ctx Cmd) (ctx : Ctx) :
    List Cmd × DiscoveryEngine Ctx Cmd :=
  match e.cache with
  | some cs => (cs, e)
  | none =>
    let cs := computeCommands e.providers ctx
    (cs, { providers := e.providers, cache := some cs })

/-- `DiscoveryEngine::refresh`: drop the cache. -/
def DiscoveryEngine.refresh {Ctx Cmd : Type} (e : DiscoveryEngine Ctx Cmd) :
    DiscoveryEngine Ctx Cmd :=
  { providers := e.providers, cache := none }

/-! ## Configuration model and validation (config.rs, validation.rs) -/

/-- `CmdEntry` from config.rs. -/
inductive CmdEntry where
  | Simple (cmd : String)
  | Full (default : String) (deps : List String) (variants : List (String × String))
deriving DecidableEq

/-- `CmdEntry::deps`. -/
def CmdEntry.deps : CmdEntry → List String
  | .Simple _ => []
  | .Full _ ds _ => ds

/-- `PackageConfig` restricted to the fields validation reads
(path/dir_name/database/mobile are irrelevant to the claims). -/
structure PackageConfig where
  name : String
  cmd : List (String × CmdEntry)
deriving DecidableEq

/-- `Config` restricted to its package table. -/
structure Config where
  packages : List (String × PackageConfig)
deriving DecidableEq

/-- Dependency normalization from `validate_command_dependencies`: a
reference containing a colon passes through, a bare package name is expanded
with the referencing command's own name. -/
def normalizeDep (dep cmdName : String) : String :=
  if dep.data.contains ':' then dep else dep ++ ":" ++ cmdName

/-- Split on a character, Rust `str::split(c).collect()`. -/
def splitOnCharAux (sep : Char) : List Char → List Char → List (List Char)
  | [], acc => [acc.reverse]
  | c :: cs, acc =>
    if c = sep then acc.reverse :: splitOnCharAux sep cs [] else splitOnCharAux sep cs (c :: acc)

/-- `dependency_exists` from validation.rs: the reference must split on `:`
into exactly two parts naming an existing package and command. -/
def dependency_exists (cfg : Config) (depRef : String) : Bool :=
  match splitOnCharAux ':' depRef.data [] with
  | [p, c] =>
    (((cfg.packages.lookup (String.mk p)).map PackageConfig.cmd).bind
      (fun cmds => cmds.lookup (String.mk c))).isSome
  | _ => false

/-- The invalid-dependency message of `validate_command_dependencies`. -/
def invalidDepMsg (dep pkg cmd : String) : String :=
  "Invalid dependency '" ++ dep ++ "' in " ++ pkg ++ ":" ++ cmd ++ " - dependency not found"

/-- The dependency graph built by `validate_command_dependencies`: one node
`pkg:cmd` per command entry, edges to normalized dependency references. -/
def buildGraph (cfg : Config) : List (String × List String) :=
  cfg.packages.flatMap (fun p =>
    p.2.cmd.map (fun c =>
      (p.1 ++ ":" ++ c.1, c.2.deps.map (fun d => normalizeDep d c.1))))

/-- The invalid-dependency errors collected while building the graph, in
iteration order. -/
def depErrors (cfg : Config) : List String :=
  cfg.packages.flatMap (fun p =>
    p.2.cmd.flatMap (fun c =>
      (c.2.deps.filter (fun d => !dependency_exists cfg (normalizeDep d c.1))).map
        (fun d => invalidDepMsg d p.1 c.1)))

/-! ## Cycle detection (validation.rs `detect_cycle`) -/

/-- Adjacency lookup on the dependency graph (`graph.get(node)`, absent
nodes having no successors). -/
def depsOf (g : List (String × List String)) (n : String) : List String :=
  (g.lookup n).getD []

/-- The cycle reported when `node` reappears in the active path: the
sub-path from its first occurrence, closed with `node` itself. -/
def cycleChain (path : List String) (node : String) : List String :=
  path.drop (path.indexOf node) ++ [node]

/-- The cycle string `a -> b -> a` of `detect_cycle`. -/
def mkCycleMsg (path : List String) (node : String) : String :=
  String.intercalate " -> " (cycleChain path node)

/-- The recursive `dfs` of `detect_cycle`, fuelled.  `visited` persists
across the whole search; `path` is the active chain.  The fold over the
successors threads `visited` and stops at the first cycle found, exactly as
the Rust loop does.  Fuel only bounds the recursion depth; every call that
recurses inserts a fresh node into `visited`, so any fuel exceeding the
number of distinct graph nodes is never exhausted. -/
def dfsNode (g : List (String × List String)) :
    Nat → String → List String → List String → Option String × List String
  | 0, _, visited, _ => (none, visited)
  | fuel + 1, node, visited, path =>
    if node ∈ path then (some (mkCycleMsg path node), visited)
    else if node ∈ visited then (none, visited)
    else
      (depsOf g node).foldl
        (fun acc d =>
          match acc with
          | (some c, v) => (some c, v)
          | (none, v) => dfsNode g fuel d v (path ++ [node]))
        (none, node :: visited)

/-- The fold of `dfsNode` over a successor list, as a named function. -/
def runDeps (g : List (String × List String)) (fuel : Nat) (path : List String)
    (acc : Option String × List String) (ds : List String) : Option String × List String :=
  ds.foldl
    (fun acc d =>
      match acc with
      | (some c, v) => (some c, v)
      | (none, v) => dfsNode g fuel d v path)
    acc

/-- All node names occurring in the graph (keys and edge targets). -/
def nodesU (g : List (String × List String)) : List String :=
  (g.map Prod.fst ++ g.flatMap Prod.snd).dedup

/-- `detect_cycle`: depth-first search from `start` with fresh `visited` and
`path`.  The fuel `(nodesU g).length + 2` strictly dominates the recursion
depth, so the result agrees with the unbounded Rust recursion. -/
def detect_cycle (g : List (String × List String)) (start : String) : Option String :=
  (dfsNode g ((nodesU g).length + 2) start [] []).1

/-- The circular-dependency errors of `validate_command_dependencies`: one
`detect_cycle` run per graph key, in iteration order. -/
def cycleErrors (g : List (String × List String)) : List String :=
  (g.map Prod.fst).filterMap (fun n =>
    (detect_cycle g n).map (fun c => "Circular dependency detected: " ++ c))

/-- The error list of `validate_command_dependencies` (the errors
contributed to `validate_config`'s report by dependency validation):
invalid-dependency errors from the build phase, then cycle errors. -/
def validate_command_dependencies (cfg : Config) : List String :=
  depErrors cfg ++ cycleErrors (buildGraph cfg)

/-- An edge of the dependency graph. -/
def Edge (g : List (String × List String)) (a b : String) : Prop :=
  b ∈ depsOf g a

/-- Reachability along dependency edges. -/
def Reach (g : List (String × List String)) : String → String → Prop :=
  Relation.ReflTransGen (Edge g)

/-- A (non-empty) cycle through `w`. -/
def CycleThrough (g : List (String × List String)) (w : String) : Prop :=
  Relation.TransGen (Edge g) w w

/-- The graph contains a cycle. -/
def HasCycle (g : List (String × List String)) : Prop :=
  ∃ w, CycleThrough g w

/-- A cycle is reachable from `n`. -/
def CycleReachable (g : List (String × List String)) (n : String) : Prop :=
  ∃ w, Reach g n w ∧ CycleThrough g w

/-- The result a provider contributes to the discovery pass: its commands
when available and successful, nothing otherwise. -/
def provResult {Ctx Cmd : Type} (ctx : Ctx) (p : Provider Ctx Cmd) : List Cmd :=
  if p.is_available ctx then
    match p.discover ctx with
    | Except.ok cs => cs
    | Except.error _ => []
  else []

/-- Number of universe nodes not yet visited: the termination measure of the
depth-first search. -/
def freshCount (U visited : List String) : Nat :=
  (U.filter (fun x => decide (x ∉ visited))).length

/-! Concrete fixtures used by witnesses and counterexamples. -/

/-- An acyclic configuration with one unresolvable dependency (`b:build`
names a package that does not exist). -/
def cfgMiss : Config :=
  ⟨[("a", ⟨"a", [("build", CmdEntry.Full "cargo build" ["b:build"] [])]⟩)]⟩

/-- The two-package circular configuration of validation.rs's
`test_circular_dependency_detection`. -/
def cfgCircular : Config :=
  ⟨[("a", ⟨"a", [("build", CmdEntry.Full "cargo build" ["b:build"] [])]⟩),
    ("b", ⟨"b", [("build", CmdEntry.Full "cargo build" ["a:build"] [])]⟩)]⟩

/-- Scenario 2 of the spec: a self-dependent `a:deploy`. -/
def cfgSelfCycle : Config :=
  ⟨[("a", ⟨"a", [("deploy", CmdEntry.Full "x" ["a:deploy"] [])]⟩)]⟩

/-- A two-node cycle `a:build <-> b:build` as a raw graph. -/
def gAB : List (String × List String) :=
  [("a:build", ["b:build"]), ("b:build", ["a:build"])]

/-- The same cycle plus an outside node `c:build` that can reach it. -/
def gCAB : List (String × List String) :=
  [("c:build", ["a:build"]), ("a:build", ["b:build"]), ("b:build", ["a:build"])]

/-- A provider that is available and succeeds. -/
def pGood : Provider Unit Nat := ⟨fun _ => true, fun _ => Except.ok [1, 2]⟩

/-- A provider that is available but fails. -/
def pBad : Provider Unit Nat := ⟨fun _ => true, fun _ => Except.error "boom"⟩

/-- A provider that is not available. -/
def pOff : Provider Unit Nat := ⟨fun _ => false, fun _ => Except.ok [9]⟩

/-- The build-file contents of Scenario 3. -/
def sc7content : String :=
  "# Build the project\nbuild:\n\techo building\n\n.PHONY: build\n"

/-- A configuration with two unresolvable dependencies on one command. -/
def cfgTwoBad : Config :=
  ⟨[("a", ⟨"a", [("build", CmdEntry.Full "cargo build" ["x:build", "y"] [])]⟩)]⟩

/-! ## Helper lemmas -/

lemma resolve_foldl_snd (vars env : List (String × String)) :
    ∀ (names : List String) (acc : String × List String),
      (names.foldl (resolveStep vars env) acc).2 =
        acc.2 ++ names.filter (fun n => (lookup2 vars env n).isNone) := by
  intro names
  induction names with
  | nil => intro acc; simp
  | cons n ns ih =>
    intro acc
    simp only [List.foldl_cons, List.filter_cons]
    cases h : lookup2 vars env n with
    | some v => simp [resolveStep, h, ih]
    | none => simp [resolveStep, h, ih]

lemma resolve_foldl_fst (vars env : List (String × String)) :
    ∀ (names : List String) (acc : String × List String),
      (names.foldl (resolveStep vars env) acc).1 =
        names.foldl
          (fun s n =>
            match lookup2 vars env n with
            | some v => strReplace s ("\x7b" ++ n ++ "\x7d") v
            | none => s)
          acc.1 := by
  intro names
  induction names with
  | nil => intro acc; simp
  | cons n ns ih =>
    intro acc
    simp only [List.foldl_cons]
    cases h : lookup2 vars env n with
    | some v => rw [ih]; simp [resolveStep, h]
    | none => rw [ih]; simp [resolveStep, h]

/-- C3 (amended): `resolve_template` fails exactly when some placeholder of
the template resolves in neither table; the failure message lists every
missing placeholder, in capture order; a success returns the template with
every placeholder substituted, the explicit table taking precedence over the
environment (the result may still contain brace tokens introduced by the
substituted values themselves). -/
theorem resolve_template_missing_characterization (t : String)
    (vars env : List (String × String)) :
    ((∃ e, resolve_template t vars env = Except.error e) ↔ missingOf t vars env ≠ []) ∧
    ((missingOf t vars env ≠ []) ↔ ∃ n ∈ placeholders t, lookup2 vars env n = none) ∧
    (∀ e, resolve_template t vars env = Except.error e →
      e = "Missing template variables: " ++
        String.intercalate ", " (missingOf t vars env) ++
        ". Set them in your config or environment.") ∧
    (∀ r, resolve_template t vars env = Except.ok r →
      missingOf t vars env = [] ∧ r = substAll t vars env) := by
  have h2 : ((placeholders t).foldl (resolveStep vars env) (t, [])).2 = missingOf t vars env := by
    simpa [missingOf] using resolve_foldl_snd vars env (placeholders t) (t, [])
  have h1 : ((placeholders t).foldl (resolveStep vars env) (t, [])).1 = substAll t vars env := by
    simpa [substAll] using resolve_foldl_fst vars env (placeholders t) (t, [])
  refine ⟨?_, ?_, ?_, ?_⟩
  · constructor
    · rintro ⟨e, he⟩ hm
      simp only [resolve_template, h2, h1, hm, List.isEmpty_nil, if_true] at he
      exact absurd he (by simp)
    · intro hm
      refine ⟨"Missing template variables: " ++
        String.intercalate ", " (missingOf t vars env) ++
        ". Set them in your config or environment.", ?_⟩
      simp only [resolve_template, h2, h1]
      rw [if_neg (by simpa [List.isEmpty_iff] using hm)]
  · rw [Ne, missingOf, List.filter_eq_nil_iff]
    push_neg
    simp [Option.isNone_iff_eq_none]
  · intro e he
    simp only [resolve_template, h2, h1] at he
    cases hm : (missingOf t vars env).isEmpty with
    | true => simp [hm] at he
    | false =>
      rw [hm] at he
      simp only [Bool.false_eq_true, if_false] at he
      injection he with h
      exact h.symm
  · intro r hr
    simp only [resolve_template, h2, h1] at hr
    cases hm : (missingOf t vars env).isEmpty with
    | true =>
      rw [hm] at hr
      simp only [if_true] at hr
      injection hr with h
      exact ⟨List.isEmpty_iff.mp hm, h.symm⟩
    | false => simp [hm] at hr

/-- Witness for C3 at Scenario 4 (missing `env`) and at a fully resolvable
template. -/
theorem resolve_template_missing_characterization_witness :
    ("Missing template variables: env. Set them in your config or environment." =
      "Missing template variables: " ++
        String.intercalate ", " (missingOf "deploy \x7bapp\x7d to \x7benv\x7d" [("app", "api")] []) ++
        ". Set them in your config or environment.") ∧
    (missingOf "echo \x7bUSER\x7d" [] [("USER", "alice")] = [] ∧
      "echo alice" = substAll "echo \x7bUSER\x7d" [] [("USER", "alice")]) :=
  ⟨(resolve_template_missing_characterization "deploy \x7bapp\x7d to \x7benv\x7d"
      [("app", "api")] []).2.2.1 _ (by rfl),
   (resolve_template_missing_characterization "echo \x7bUSER\x7d"
      [] [("USER", "alice")]).2.2.2 "echo alice" (by rfl)⟩

/-- Counterexample for C3 as stated: every placeholder of the template is
present, yet the result still contains a brace token, because the
substituted value itself holds one. -/
theorem resolve_template_remaining_token_counterexample :
    resolve_template "\x7ba\x7d" [("a", "\x7boops\x7d")] [] = Except.ok "\x7boops\x7d" ∧
    placeholders "\x7ba\x7d" = ["a"] ∧
    lookup2 [("a", "\x7boops\x7d")] [] "a" ≠ none ∧
    placeholders "\x7boops\x7d" = ["oops"] :=
  ⟨rfl, rfl, by decide, rfl⟩

lemma computeCommands_foldl {Ctx Cmd : Type} (ctx : Ctx) :
    ∀ (ps : List (Provider Ctx Cmd)) (acc : List Cmd),
      ps.foldl
        (fun acc p =>
          if p.is_available ctx then
            match p.discover ctx with
            | Except.ok cs => acc ++ cs
            | Except.error _ => acc
          else acc)
        acc = acc ++ ps.flatMap (provResult ctx) := by
  intro ps
  induction ps with
  | nil => intro acc; simp
  | cons p ps ih =>
    intro acc
    simp only [List.foldl_cons, List.flatMap_cons]
    by_cases ha : p.is_available ctx
    · cases hd : p.discover ctx with
      | ok cs => simp [ha, hd, ih, provResult, List.append_assoc]
      | error msg => simp [ha, hd, ih, provResult]
    · simp [ha, ih, provResult]

lemma computeCommands_eq {Ctx Cmd : Type} (ps : List (Provider Ctx Cmd)) (ctx : Ctx) :
    computeCommands ps ctx = ps.flatMap (provResult ctx) := by
  simpa [computeCommands] using computeCommands_foldl ctx ps []

/-- C5: discovery is the order-preserving concatenation of the available
providers' successful results, and a provider whose `discover` fails
contributes nothing: removing it leaves the pass unchanged. -/
theorem provider_failure_skipped {Ctx Cmd : Type} (ctx : Ctx)
    (ps ps₁ ps₂ : List (Provider Ctx Cmd)) (p : Provider Ctx Cmd) :
    computeCommands ps ctx = ps.flatMap (provResult ctx) ∧
    (∀ msg, p.discover ctx = Except.error msg →
      computeCommands (ps₁ ++ p :: ps₂) ctx = computeCommands (ps₁ ++ ps₂) ctx) := by
  refine ⟨computeCommands_eq ps ctx, ?_⟩
  intro msg h
  have hp : provResult ctx p = [] := by
    by_cases ha : p.is_available ctx <;> simp [provResult, ha, h]
  simp [computeCommands_eq, hp]

/-- Witness for C5: dropping the failing provider `pBad` leaves the result
of a discovery pass unchanged. -/
theorem provider_failure_skipped_witness :
    computeCommands [pGood, pBad, pOff] () = computeCommands [pGood, pOff] () :=
  (provider_failure_skipped () [] [pGood] [pOff] pBad).2 "boom" rfl

/-- C4: a second `discover` call (with any context) returns the list of the
first call unchanged; a first call on an empty cache runs the providers in
registration order and caches the concatenated result; `refresh` clears the
cache. -/
theorem discovery_cache_stability {Ctx Cmd : Type} (e : DiscoveryEngine Ctx Cmd)
    (ctx ctx' : Ctx) :
    ((e.discover ctx).2.discover ctx').1 = (e.discover ctx).1 ∧
    (e.cache = none →
      (e.discover ctx).1 = computeCommands e.providers ctx ∧
      (e.discover ctx).2.cache = some (computeCommands e.providers ctx)) ∧
    (DiscoveryEngine.refresh (e.discover ctx).2).cache = none := by
  obtain ⟨ps, c⟩ := e
  cases c <;> simp [DiscoveryEngine.discover, DiscoveryEngine.refresh]

/-- Witness for C4 on a concrete two-provider engine with an empty cache. -/
theorem discovery_cache_stability_witness :
    ((DiscoveryEngine.discover (⟨[pGood, pBad], none⟩ : DiscoveryEngine Unit Nat) ()).2.discover
        ()).1 =
      (DiscoveryEngine.discover (⟨[pGood, pBad], none⟩ : DiscoveryEngine Unit Nat) ()).1 ∧
    (DiscoveryEngine.discover (⟨[pGood, pBad], none⟩ : DiscoveryEngine Unit Nat) ()).1 =
      computeCommands [pGood, pBad] () :=
  ⟨(discovery_cache_stability ⟨[pGood, pBad], none⟩ () ()).1,
   ((discovery_cache_stability ⟨[pGood, pBad], none⟩ () ()).2.1 rfl).1⟩

lemma parseTargetsAux_names :
    ∀ (lines : List (List Char)) (cur : Option String),
      (parseTargetsAux lines cur).map Prod.fst =
        lines.filterMap (fun l => (targetNameOfLine l).map String.mk) := by
  intro lines
  induction lines with
  | nil => intro cur; simp [parseTargetsAux]
  | cons line rest ih =>
    intro cur
    simp only [parseTargetsAux, targetNameOfLine, List.filterMap_cons]
    split_ifs <;>
      first
      | (simp [ih, targetNameOfLine]; done)
      | (cases hw : firstWord (List.takeWhile (fun x => !decide (x = ':')) (trimL line)) with
          | some w => simp [hw, ih, targetNameOfLine]
          | none => simp [hw, ih, targetNameOfLine])

/-- C6 (amended): the recognized targets are exactly the non-blank,
non-indented, non-comment lines containing `:` whose text before the first
`:` neither starts with `.`/`_` nor contains a variable reference — with no
exclusion of lines whose `=` precedes the `:`. -/
theorem makefile_target_rule (content : String) :
    (parse_makefile_targets content).map Prod.fst =
      (rustLines content.data).filterMap (fun l => (targetNameOfLine l).map String.mk) :=
  parseTargetsAux_names (rustLines content.data) none

/-- Counterexample for C6 as stated: in `FOO = a:b` the `=` precedes the
`:`, yet the line is recognized as a target named `FOO`. -/
theorem makefile_equals_line_counterexample :
    parse_makefile_targets "FOO = a:b" = [("FOO", none)] ∧
    "FOO = a:b".data.indexOf '=' < "FOO = a:b".data.indexOf ':' :=
  ⟨rfl, by decide⟩

/-- C7 (amended): Scenario 3 yields exactly one command, `build`, described
by its preceding comment line, and nothing for `.PHONY`; the description is
the last contiguous immediately-preceding comment line, and a blank line
resets it. -/
theorem makefile_comment_scenario :
    makefileCommands sc7content =
      [{ id := "make.build", label := "📦 build", description := "Build the project",
         source := "Makefile", category := Category.Build }] ∧
    parse_makefile_targets "# one\n# two\nbuild:" = [("build", some "two")] ∧
    parse_makefile_targets "# doc\n\nbuild:" = [("build", none)] :=
  ⟨rfl, rfl, rfl⟩

/-- Counterexample for C7 as stated: with two contiguous preceding comment
lines, only the last becomes the description — the first line's text does
not occur in it. -/
theorem makefile_comment_lines_counterexample :
    parse_makefile_targets "# one\n# two\nbuild:" = [("build", some "two")] ∧
    infixOfL "one".data "two".data = false :=
  ⟨rfl, rfl⟩

/-- C9 (amended): the makefile provider lists commands in the order the
target lines appear in the build file (not sorted by name); the list is a
pure function of the file contents, hence stable across repeated calls. -/
theorem makefile_commands_in_file_order (content : String) :
    (makefileCommands content).map DiscoveredCommand.id =
      ((rustLines content.data).filterMap (fun l => (targetNameOfLine l).map String.mk)).map
        (fun n => "make." ++ n) := by
  have h := parseTargetsAux_names (rustLines content.data) none
  calc (makefileCommands content).map DiscoveredCommand.id
      = ((parse_makefile_targets content).map Prod.fst).map (fun n => "make." ++ n) := by
        simp [makefileCommands, List.map_map]
    _ = _ := by rw [parse_makefile_targets, h]

/-- Counterexample for C9 as stated: a build file listing target `b` before
target `a` yields the ids `make.b`, `make.a` — not sorted by name. -/
theorem makefile_commands_not_sorted_counterexample :
    (makefileCommands "b:\na:").map DiscoveredCommand.id = ["make.b", "make.a"] ∧
    ¬ List.Sorted (fun a b : DiscoveredCommand => a.id.data ≤ b.id.data)
        (makefileCommands "b:\na:") :=
  ⟨rfl, by decide⟩

lemma extractDescAux_bounds :
    ∀ (lines : List (List Char)) (d : String),
      extractDescAux lines = some d →
      (∃ line ∈ lines, ("# Description:".data).isPrefixOf (trimL line) ∧
          d = String.mk (trimL (trimStartMatches (trimL line) ("# Description:".data)))) ∨
      (10 < utf8Len d.data ∧ utf8Len d.data < 100) := by
  intro lines
  induction lines with
  | nil => intro d h; simp [extractDescAux] at h
  | cons line rest ih =>
    intro d h
    simp only [extractDescAux] at h
    split_ifs at h with h1 h2 h3
    · injection h with h
      exact Or.inl ⟨line, by simp, h1, h.symm⟩
    · injection h with h
      rcases Bool.and_eq_true _ _ |>.mp h3 with ⟨h3a, h3e⟩
      rcases Bool.and_eq_true _ _ |>.mp h3a with ⟨h3b, h3d⟩
      refine Or.inr ⟨?_, ?_⟩
      · rw [← h]
        exact of_decide_eq_true h3d
      · rw [← h]
        exact of_decide_eq_true h3e
    · rcases ih d h with ⟨l, hl, hrest⟩ | hb
      · exact Or.inl ⟨l, List.mem_cons_of_mem _ hl, hrest⟩
      · exact Or.inr hb
    · rcases ih d h with ⟨l, hl, hrest⟩ | hb
      · exact Or.inl ⟨l, List.mem_cons_of_mem _ hl, hrest⟩
      · exact Or.inr hb

/-- C8 (amended): a returned description is either the value of a
`# Description:` line (any length) or an ordinary comment whose trimmed
text has byte length strictly between 10 and 100; lengths exactly 10 and
exactly 100 never qualify. -/
theorem script_description_length_bounds (content : String) (d : String)
    (h : extract_description content = some d) :
    (∃ line ∈ (rustLines content.data).take 20,
        ("# Description:".data).isPrefixOf (trimL line) ∧
        d = String.mk (trimL (trimStartMatches (trimL line) ("# Description:".data)))) ∨
    (10 < utf8Len d.data ∧ utf8Len d.data < 100) :=
  extractDescAux_bounds _ d h

/-- Witness for C8 on a comment of length 11. -/
theorem script_description_length_bounds_witness :
    (∃ line ∈ (rustLines ("#!/bin/sh\n# abcdefghijk").data).take 20,
        ("# Description:".data).isPrefixOf (trimL line) ∧
        "abcdefghijk" = String.mk (trimL (trimStartMatches (trimL line) ("# Description:".data)))) ∨
    (10 < utf8Len "abcdefghijk".data ∧ utf8Len "abcdefghijk".data < 100) :=
  script_description_length_bounds "#!/bin/sh\n# abcdefghijk" "abcdefghijk" (by rfl)

/-- Counterexample for C8 as stated: comments of length exactly 10 and
exactly 100 do not qualify (the code requires strictly more than 10 and
strictly less than 100 bytes); length 11 does. -/
theorem script_description_inclusive_counterexample :
    extract_description "#!/bin/sh\n# abcdefghij" = none ∧
    utf8Len "abcdefghij".data = 10 ∧
    extract_description ("#!/bin/sh\n# " ++ String.mk (List.replicate 100 'a')) = none ∧
    utf8Len (List.replicate 100 'a') = 100 ∧
    extract_description "#!/bin/sh\n# abcdefghijk" = some "abcdefghijk" :=
  ⟨rfl, rfl, by decide, by decide, rfl⟩

/-- C2: a dependency reference containing `:` is kept verbatim, a bare name
is expanded with the referencing command's name, and every entry's
unresolvable (normalized) reference contributes an invalid-dependency error
naming the declared reference and the source node to the single collected
error list. -/
theorem validate_dependency_errors (cfg : Config) (pn : String) (pc : PackageConfig)
    (cn : String) (e : CmdEntry) (d : String)
    (hp : (pn, pc) ∈ cfg.packages) (hc : (cn, e) ∈ pc.cmd) (hd : d ∈ e.deps) :
    (d.data.contains ':' = true → normalizeDep d cn = d) ∧
    (d.data.contains ':' = false → normalizeDep d cn = d ++ ":" ++ cn) ∧
    (dependency_exists cfg (normalizeDep d cn) = false →
      invalidDepMsg d pn cn ∈ validate_command_dependencies cfg) := by
  refine ⟨?_, ?_, ?_⟩
  · intro h
    have hm : ':' ∈ d.data := by simpa using h
    simp [normalizeDep, hm]
  · intro h
    have hm : ':' ∉ d.data := by simpa using h
    simp [normalizeDep, hm]
  · intro h
    have hmem : invalidDepMsg d pn cn ∈ depErrors cfg := by
      simp only [depErrors, List.mem_flatMap]
      refine ⟨(pn, pc), hp, ?_⟩
      simp only [List.mem_flatMap]
      refine ⟨(cn, e), hc, ?_⟩
      simp only [List.mem_map]
      refine ⟨d, ?_, rfl⟩
      rw [List.mem_filter]
      exact ⟨hd, by simp [h]⟩
    exact List.mem_append_left _ hmem

/-- Witness for C2: both unresolvable references of `cfgTwoBad` are reported
in the one collected list; the first uses the verbatim qualified form, the
second the bare-name expansion. -/
theorem validate_dependency_errors_witness :
    invalidDepMsg "x:build" "a" "build" ∈ validate_command_dependencies cfgTwoBad ∧
    invalidDepMsg "y" "a" "build" ∈ validate_command_dependencies cfgTwoBad :=
  ⟨(validate_dependency_errors cfgTwoBad "a"
      ⟨"a", [("build", CmdEntry.Full "cargo build" ["x:build", "y"] [])]⟩ "build"
      (CmdEntry.Full "cargo build" ["x:build", "y"] []) "x:build"
      (by decide) (by decide) (by decide)).2.2 (by rfl),
   (validate_dependency_errors cfgTwoBad "a"
      ⟨"a", [("build", CmdEntry.Full "cargo build" ["x:build", "y"] [])]⟩ "build"
      (CmdEntry.Full "cargo build" ["x:build", "y"] []) "y"
      (by decide) (by decide) (by decide)).2.2 (by rfl)⟩

/-! ## Depth-first-search lemmas for `detect_cycle` -/

lemma runDeps_some (g : List (String × List String)) (fuel : Nat) (path : List String) :
    ∀ (ds : List String) (c : String) (v : List String),
      runDeps g fuel path (some c, v) ds = (some c, v) := by
  intro ds
  induction ds with
  | nil => intro c v; rfl
  | cons d ds ih => intro c v; exact ih c v

lemma runDeps_cons (g : List (String × List String)) (fuel : Nat) (path : List String)
    (d : String) (ds : List String) (v : List String) :
    runDeps g fuel path (none, v) (d :: ds) =
      runDeps g fuel path (dfsNode g fuel d v path) ds := rfl

lemma dfsNode_succ (g : List (String × List String)) (fuel : Nat) (node : String)
    (visited path : List String) :
    dfsNode g (fuel + 1) node visited path =
      if node ∈ path then (some (mkCycleMsg path node), visited)
      else if node ∈ visited then (none, visited)
      else runDeps g fuel (path ++ [node]) (none, node :: visited) (depsOf g node) := rfl

lemma chain'_drop {α : Type} (r : α → α → Prop) :
    ∀ (n : Nat) (l : List α), List.Chain' r l → List.Chain' r (l.drop n)
  | 0, _, h => h
  | _ + 1, [], _ => by simp
  | n + 1, _ :: l, h => chain'_drop r n l h.tail

lemma chain_getLast_transGen {α : Type} (r : α → α → Prop) :
    ∀ (l : List α) (a b : α), List.Chain r a l → l.getLast? = some b →
      Relation.TransGen r a b := by
  intro l
  induction l with
  | nil => intro a b _ hb; simp at hb
  | cons x t ih =>
    intro a b hch hb
    rcases List.chain_cons.mp hch with ⟨hax, hxt⟩
    cases t with
    | nil =>
      simp at hb
      exact hb ▸ Relation.TransGen.single hax
    | cons y t' =>
      rw [List.getLast?_cons_cons] at hb
      exact Relation.TransGen.head hax (ih x b hxt hb)

lemma cycle_of_chain {α : Type} (r : α → α → Prop) (c : List α) (w : α)
    (hc : List.Chain' r c) (hh : c.head? = some w) (hl : c.getLast? = some w)
    (hlen : 2 ≤ c.length) : Relation.TransGen r w w := by
  cases c with
  | nil => simp at hh
  | cons x rest =>
    have hx : x = w := by simpa using hh
    subst hx
    cases rest with
    | nil => simp at hlen
    | cons y t =>
      rw [List.getLast?_cons_cons] at hl
      exact chain_getLast_transGen r (y :: t) x x hc hl

lemma lookup_mem {β : Type} : ∀ (l : List (String × β)) (a : String) (b : β),
    l.lookup a = some b → (a, b) ∈ l := by
  intro l
  induction l with
  | nil => intro a b h; simp [List.lookup] at h
  | cons p t ih =>
    intro a b h
    rw [List.lookup] at h
    rcases hak : (a == p.1) with _ | _
    · rw [hak] at h
      exact List.mem_cons_of_mem _ (ih a b h)
    · rw [hak] at h
      injection h with h
      have : a = p.1 := beq_iff_eq.mp hak
      subst this
      rw [← h]
      exact List.mem_cons_self _ _

lemma depsOf_mem_nodesU (g : List (String × List String)) (n d : String)
    (h : d ∈ depsOf g n) : d ∈ nodesU g := by
  rw [depsOf] at h
  cases hl : g.lookup n with
  | none => rw [hl] at h; simp at h
  | some ds =>
    rw [hl] at h
    refine List.mem_dedup.mpr (List.mem_append_right _ ?_)
    exact List.mem_flatMap.mpr ⟨(n, ds), lookup_mem g n ds hl, h⟩

lemma key_mem_nodesU (g : List (String × List String)) (n : String)
    (h : n ∈ g.map Prod.fst) : n ∈ nodesU g :=
  List.mem_dedup.mpr (List.mem_append_left _ h)

lemma depsOf_ne_nil_key (g : List (String × List String)) (n : String)
    (h : depsOf g n ≠ []) : n ∈ g.map Prod.fst := by
  rw [depsOf] at h
  cases hl : g.lookup n with
  | none => rw [hl] at h; simp at h
  | some ds => exact List.mem_map.mpr ⟨(n, ds), lookup_mem g n ds hl, rfl⟩

lemma filter_notmem_length_le {v w : List String} (h : ∀ x, x ∈ v → x ∈ w) :
    ∀ U : List String,
      (U.filter (fun x => decide (x ∉ w))).length ≤
        (U.filter (fun x => decide (x ∉ v))).length := by
  intro U
  induction U with
  | nil => simp
  | cons u U ih =>
    rw [List.filter_cons, List.filter_cons]
    by_cases hw : u ∈ w
    · rw [if_neg (by simp [hw])]
      by_cases hv : u ∈ v
      · rw [if_neg (by simp [hv])]
        exact ih
      · rw [if_pos (by simp [hv])]
        simp only [List.length_cons]
        exact Nat.le_succ_of_le ih
    · have hv : u ∉ v := fun hc => hw (h u hc)
      rw [if_pos (by simp [hw]), if_pos (by simp [hv])]
      simp only [List.length_cons]
      exact Nat.succ_le_succ ih

lemma freshCount_le_of_subset (U : List String) {v w : List String}
    (h : ∀ x, x ∈ v → x ∈ w) : freshCount U w ≤ freshCount U v :=
  filter_notmem_length_le h U

lemma filter_notmem_insert_lt (node : String) {v : List String} (hv : node ∉ v) :
    ∀ U : List String, node ∈ U →
      (U.filter (fun x => decide (x ∉ node :: v))).length <
        (U.filter (fun x => decide (x ∉ v))).length := by
  intro U
  induction U with
  | nil => intro h; simp at h
  | cons u U ih =>
    intro hU
    rw [List.filter_cons, List.filter_cons]
    by_cases hu : u = node
    · subst hu
      rw [if_neg (by simp), if_pos (by simp [hv])]
      simp only [List.length_cons]
      have hmono := @filter_notmem_length_le v (u :: v)
        (fun x hx => List.mem_cons_of_mem _ hx) U
      omega
    · rcases List.mem_cons.mp hU with heq | hU2
      · exact absurd heq.symm hu
      · by_cases huv : u ∈ v
        · rw [if_neg (by simp [huv]), if_neg (by simp [huv])]
          exact ih hU2
        · have h1 : u ∉ node :: v := by simp [hu, huv]
          rw [if_pos (by simp [h1]), if_pos (by simp [huv])]
          simp only [List.length_cons]
          exact Nat.succ_lt_succ (ih hU2)

lemma freshCount_insert_lt (U : List String) (node : String) (v : List String)
    (hU : node ∈ U) (hv : node ∉ v) : freshCount U (node :: v) < freshCount U v :=
  filter_notmem_insert_lt node hv U hU

lemma closed_reach (g : List (String × List String)) (v p : List String)
    (hclosed : ∀ x ∈ v, x ∉ p → ∀ d ∈ depsOf g x, d ∈ v ∧ d ∉ p) :
    ∀ a b, Reach g a b → a ∈ v → a ∉ p → b ∈ v ∧ b ∉ p := by
  intro a b h
  induction h with
  | refl => intro ha hp; exact ⟨ha, hp⟩
  | tail _ hbc ih =>
    intro ha hp
    obtain ⟨hb, hbp⟩ := ih ha hp
    exact hclosed _ hb hbp _ hbc

lemma dfsNode_some_invariant (g : List (String × List String)) (start : String) :
    ∀ (fuel : Nat) (node : String) (visited path : List String) (s : String)
      (v' : List String),
      List.Chain' (Edge g) (path ++ [node]) →
      (∀ p ∈ path ++ [node], Reach g start p) →
      dfsNode g fuel node visited path = (some s, v') →
      ∃ c w, s = String.intercalate " -> " c ∧ 2 ≤ c.length ∧
        c.head? = some w ∧ c.getLast? = some w ∧ List.Chain' (Edge g) c ∧
        CycleThrough g w ∧ Reach g start w := by
  intro fuel
  induction fuel with
  | zero =>
    intro node visited path s v' _ _ hrun
    exact absurd hrun (by simp [dfsNode])
  | succ fuel ih =>
    intro node visited path s v' hchain hreach hrun
    rw [dfsNode_succ] at hrun
    by_cases hp : node ∈ path
    · rw [if_pos hp] at hrun
      injection hrun with h1 _
      injection h1 with h1
      have hidx : path.indexOf node < path.length := List.indexOf_lt_length.mpr hp
      refine ⟨cycleChain path node, node, ?_, ?_, ?_, ?_, ?_, ?_, ?_⟩
      · rw [← h1]; rfl
      · simp only [cycleChain, List.length_append, List.length_drop, List.length_singleton]
        omega
      · rw [cycleChain, List.head?_append, List.head?_drop,
          List.getElem?_eq_getElem hidx, List.getElem_indexOf hidx]
        rfl
      · rw [cycleChain, List.getLast?_concat]
      · rw [cycleChain, ← List.drop_append_of_le_length (Nat.le_of_lt hidx)]
        exact chain'_drop (Edge g) _ _ hchain
      · refine cycle_of_chain (Edge g) (cycleChain path node) node ?_ ?_ ?_ ?_
        · rw [cycleChain, ← List.drop_append_of_le_length (Nat.le_of_lt hidx)]
          exact chain'_drop (Edge g) _ _ hchain
        · rw [cycleChain, List.head?_append, List.head?_drop,
            List.getElem?_eq_getElem hidx, List.getElem_indexOf hidx]
          rfl
        · rw [cycleChain, List.getLast?_concat]
        · simp only [cycleChain, List.length_append, List.length_drop, List.length_singleton]
          omega
      · exact hreach node (List.mem_append_right _ (List.mem_singleton_self _))
    · rw [if_neg hp] at hrun
      by_cases hv : node ∈ visited
      · rw [if_pos hv] at hrun
        exact absurd hrun (by simp)
      · rw [if_neg hv] at hrun
        have aux : ∀ (ds : List String) (v : List String),
            (∀ d ∈ ds, d ∈ depsOf g node) →
            runDeps g fuel (path ++ [node]) (none, v) ds = (some s, v') →
            ∃ c w, s = String.intercalate " -> " c ∧ 2 ≤ c.length ∧
              c.head? = some w ∧ c.getLast? = some w ∧ List.Chain' (Edge g) c ∧
              CycleThrough g w ∧ Reach g start w := by
          intro ds
          induction ds with
          | nil =>
            intro v _ hrd
            exact absurd hrd (by simp [runDeps])
          | cons d ds ihds =>
            intro v hds hrd
            rw [runDeps_cons] at hrd
            rcases hchild : dfsNode g fuel d v (path ++ [node]) with ⟨o, v₁⟩
            rw [hchild] at hrd
            cases o with
            | some c =>
              rw [runDeps_some] at hrd
              injection hrd with h1 _
              injection h1 with h1
              have hedge : Edge g node d := hds d (List.mem_cons_self _ _)
              have hchain' : List.Chain' (Edge g) ((path ++ [node]) ++ [d]) := by
                rw [List.chain'_append]
                refine ⟨hchain, by simp, ?_⟩
                intro x hx y hy
                rw [List.getLast?_concat] at hx
                simp at hx hy
                rw [← hx, ← hy]
                exact hedge
              have hreach' : ∀ p ∈ (path ++ [node]) ++ [d], Reach g start p := by
                intro p hpm
                rcases List.mem_append.mp hpm with hpm | hpm
                · exact hreach p hpm
                · rw [List.mem_singleton.mp hpm]
                  exact Relation.ReflTransGen.tail
                    (hreach node (List.mem_append_right _ (List.mem_singleton_self _))) hedge
              rw [← h1]
              exact ih d v (path ++ [node]) c v₁ hchain' hreach' hchild
            | none =>
              exact ihds v₁ (fun x hx => hds x (List.mem_cons_of_mem _ hx)) hrd
        exact aux (depsOf g node) (node :: visited) (fun d h => h) hrun

lemma dfsNode_none_invariant (g : List (String × List String)) :
    ∀ (fuel : Nat) (node : String) (visited path v' : List String),
      freshCount (nodesU g) visited < fuel →
      node ∈ nodesU g →
      (∀ x ∈ path, x ∈ visited) →
      (∀ x ∈ visited, x ∉ path → ∀ d ∈ depsOf g x, d ∈ visited ∧ d ∉ path) →
      (∀ x ∈ visited, x ∉ path → ¬ CycleThrough g x) →
      dfsNode g fuel node visited path = (none, v') →
      (∀ x ∈ visited, x ∈ v') ∧ node ∈ v' ∧ node ∉ path ∧
      (∀ x ∈ v', x ∉ path → ∀ d ∈ depsOf g x, d ∈ v' ∧ d ∉ path) ∧
      (∀ x ∈ v', x ∉ path → ¬ CycleThrough g x) := by
  intro fuel
  induction fuel with
  | zero =>
    intro node visited path v' hcnt
    exact absurd hcnt (Nat.not_lt_zero _)
  | succ fuel ih =>
    intro node visited path v' hcnt hnode hpv hclosed hsafe hrun
    rw [dfsNode_succ] at hrun
    by_cases hp : node ∈ path
    · rw [if_pos hp] at hrun
      exact absurd hrun (by simp)
    · rw [if_neg hp] at hrun
      by_cases hv : node ∈ visited
      · rw [if_pos hv] at hrun
        injection hrun with _ h2
        subst h2
        exact ⟨fun x hx => hx, hv, hp, hclosed, hsafe⟩
      · rw [if_neg hv] at hrun
        have hsub' : ∀ x ∈ path ++ [node], x ∈ node :: visited := by
          intro x hx
          rcases List.mem_append.mp hx with hx | hx
          · exact List.mem_cons_of_mem _ (hpv x hx)
          · rw [List.mem_singleton.mp hx]
            exact List.mem_cons_self _ _
        have hclosed' : ∀ x ∈ node :: visited, x ∉ path ++ [node] →
            ∀ d ∈ depsOf g x, d ∈ node :: visited ∧ d ∉ path ++ [node] := by
          intro x hx hxp d hd
          rcases List.mem_cons.mp hx with rfl | hx
          · exact absurd (List.mem_append_right _ (List.mem_singleton_self _)) hxp
          · have hxp2 : x ∉ path := fun hc => hxp (List.mem_append_left _ hc)
            obtain ⟨h1, h2⟩ := hclosed x hx hxp2 d hd
            refine ⟨List.mem_cons_of_mem _ h1, ?_⟩
            intro hc
            rcases List.mem_append.mp hc with hc | hc
            · exact h2 hc
            · rw [List.mem_singleton.mp hc] at h1
              exact hv h1
        have hsafe' : ∀ x ∈ node :: visited, x ∉ path ++ [node] → ¬ CycleThrough g x := by
          intro x hx hxp
          rcases List.mem_cons.mp hx with rfl | hx
          · exact absurd (List.mem_append_right _ (List.mem_singleton_self _)) hxp
          · exact hsafe x hx (fun hc => hxp (List.mem_append_left _ hc))
        have hcnt' : freshCount (nodesU g) (node :: visited) < fuel := by
          have h1 := freshCount_insert_lt (nodesU g) node visited hnode hv
          omega
        have aux : ∀ (ds : List String) (v : List String),
            (∀ d ∈ ds, d ∈ depsOf g node) →
            (∀ x ∈ node :: visited, x ∈ v) →
            (∀ x ∈ path ++ [node], x ∈ v) →
            (∀ x ∈ v, x ∉ path ++ [node] → ∀ d ∈ depsOf g x, d ∈ v ∧ d ∉ path ++ [node]) →
            (∀ x ∈ v, x ∉ path ++ [node] → ¬ CycleThrough g x) →
            runDeps g fuel (path ++ [node]) (none, v) ds = (none, v') →
            (∀ x ∈ v, x ∈ v') ∧
            (∀ x ∈ node :: visited, x ∈ v') ∧
            (∀ x ∈ v', x ∉ path ++ [node] → ∀ d ∈ depsOf g x, d ∈ v' ∧ d ∉ path ++ [node]) ∧
            (∀ x ∈ v', x ∉ path ++ [node] → ¬ CycleThrough g x) ∧
            (∀ d ∈ ds, d ∈ v' ∧ d ∉ path ++ [node]) := by
          intro ds
          induction ds with
          | nil =>
            intro v _ hnv _ hcl hsf hrd
            have h2 : v = v' := by
              have : runDeps g fuel (path ++ [node]) (none, v) [] = (none, v) := rfl
              rw [this] at hrd
              injection hrd
            subst h2
            exact ⟨fun x hx => hx, hnv, hcl, hsf, by simp⟩
          | cons d ds ihds =>
            intro v hds hnv hpv' hcl hsf hrd
            rw [runDeps_cons] at hrd
            rcases hchild : dfsNode g fuel d v (path ++ [node]) with ⟨o, v₁⟩
            rw [hchild] at hrd
            cases o with
            | some c =>
              rw [runDeps_some] at hrd
              exact absurd hrd (by simp)
            | none =>
              have hcntv : freshCount (nodesU g) v < fuel :=
                Nat.lt_of_le_of_lt (freshCount_le_of_subset (nodesU g) hnv) hcnt'
              have hd2 : d ∈ nodesU g :=
                depsOf_mem_nodesU g node d (hds d (List.mem_cons_self _ _))
              obtain ⟨m1, m2, m3, m4, m5⟩ :=
                ih d v (path ++ [node]) v₁ hcntv hd2 hpv' hcl hsf hchild
              obtain ⟨k1, k2, k3, k4, k5⟩ :=
                ihds v₁ (fun x hx => hds x (List.mem_cons_of_mem _ hx))
                  (fun x hx => m1 x (hnv x hx)) (fun x hx => m1 x (hpv' x hx)) m4 m5 hrd
              refine ⟨fun x hx => k1 x (m1 x hx), k2, k3, k4, ?_⟩
              intro d' hd'
              rcases List.mem_cons.mp hd' with rfl | hmem
              · exact ⟨k1 d' m2, m3⟩
              · exact k5 d' hmem
        obtain ⟨a1, a2, a3, a4, a5⟩ :=
          aux (depsOf g node) (node :: visited) (fun d h => h) (fun x hx => hx) hsub'
            hclosed' hsafe' hrun
        refine ⟨fun x hx => a1 x (List.mem_cons_of_mem _ hx),
          a1 node (List.mem_cons_self _ _), hp, ?_, ?_⟩
        · intro x hx hxp d hd
          by_cases hxn : x = node
          · subst hxn
            obtain ⟨hdv, hdp⟩ := a5 d hd
            exact ⟨hdv, fun hc => hdp (List.mem_append_left _ hc)⟩
          · have hxp' : x ∉ path ++ [node] := by
              intro hc
              rcases List.mem_append.mp hc with hc | hc
              · exact hxp hc
              · exact hxn (List.mem_singleton.mp hc)
            obtain ⟨h1, h2⟩ := a3 x hx hxp' d hd
            exact ⟨h1, fun hc => h2 (List.mem_append_left _ hc)⟩
        · intro x hx hxp
          by_cases hxn : x = node
          · subst hxn
            intro hcyc
            obtain ⟨z, hz, hzr⟩ := Relation.TransGen.head'_iff.mp hcyc
            obtain ⟨hzv, hzp⟩ := a5 z hz
            obtain ⟨_, hnp'⟩ := closed_reach g v' (path ++ [x]) a3 z x hzr hzv hzp
            exact hnp' (List.mem_append_right _ (List.mem_singleton_self _))
          · have hxp' : x ∉ path ++ [node] := by
              intro hc
              rcases List.mem_append.mp hc with hc | hc
              · exact hxp hc
              · exact hxn (List.mem_singleton.mp hc)
            exact a4 x hx hxp'

lemma detect_cycle_sound (g : List (String × List String)) (start s : String)
    (h : detect_cycle g start = some s) :
    ∃ c w, s = String.intercalate " -> " c ∧ 2 ≤ c.length ∧
      c.head? = some w ∧ c.getLast? = some w ∧ List.Chain' (Edge g) c ∧
      CycleThrough g w ∧ Reach g start w := by
  rw [detect_cycle] at h
  rcases hrun : dfsNode g ((nodesU g).length + 2) start [] [] with ⟨o, v'⟩
  rw [hrun] at h
  simp only at h
  subst h
  refine dfsNode_some_invariant g start _ start [] [] s v' ?_ ?_ hrun
  · simp
  · intro p hp
    simp only [List.nil_append, List.mem_singleton] at hp
    rw [hp]
    exact Relation.ReflTransGen.refl

lemma detect_cycle_none_not_reachable (g : List (String × List String)) (start : String)
    (hstart : start ∈ nodesU g) (h : detect_cycle g start = none) :
    ¬ CycleReachable g start := by
  rw [detect_cycle] at h
  rcases hrun : dfsNode g ((nodesU g).length + 2) start [] [] with ⟨o, v'⟩
  rw [hrun] at h
  simp only at h
  subst h
  have hcnt : freshCount (nodesU g) [] < (nodesU g).length + 2 := by
    have h1 : freshCount (nodesU g) [] ≤ (nodesU g).length := List.length_filter_le _ _
    omega
  obtain ⟨_, m2, _, m4, m5⟩ :=
    dfsNode_none_invariant g _ start [] [] v' hcnt hstart (by simp) (by simp) (by simp) hrun
  rintro ⟨w, hr, hc⟩
  obtain ⟨hw, _⟩ := closed_reach g v' [] m4 start w hr m2 (by simp)
  exact m5 w hw (by simp) hc

lemma detect_cycle_isSome_iff (g : List (String × List String)) (n : String)
    (hn : n ∈ g.map Prod.fst) :
    (detect_cycle g n).isSome = true ↔ CycleReachable g n := by
  constructor
  · intro h
    obtain ⟨s, hs⟩ := Option.isSome_iff_exists.mp h
    obtain ⟨c, w, _, _, _, _, _, hcy, hrw⟩ := detect_cycle_sound g n s hs
    exact ⟨w, hrw, hcy⟩
  · intro h
    cases ho : detect_cycle g n with
    | none => exact absurd h (detect_cycle_none_not_reachable g n (key_mem_nodesU g n hn) ho)
    | some s => simp

lemma length_filterMap_isSome {α β : Type} (f : α → Option β) :
    ∀ l : List α, (l.filterMap f).length = (l.filter (fun x => (f x).isSome)).length := by
  intro l
  induction l with
  | nil => rfl
  | cons a l ih =>
    rw [List.filterMap_cons, List.filter_cons]
    cases h : f a with
    | none => simp [h, ih]
    | some b => simp [h, ih]

lemma cfgMiss_acyclic : ¬ HasCycle (buildGraph cfgMiss) := by
  have hg : buildGraph cfgMiss = [("a:build", ["b:build"])] := rfl
  have hedge : ∀ a b : String, Edge (buildGraph cfgMiss) a b →
      a = "a:build" ∧ b = "b:build" := by
    intro a b h
    rw [Edge, depsOf, hg] at h
    by_cases ha : a = "a:build"
    · subst ha
      refine ⟨rfl, ?_⟩
      simpa using h
    · have hb : (a == "a:build") = false := by
        rw [beq_eq_false_iff_ne]
        exact ha
      simp [List.lookup, hb] at h
  rintro ⟨w, hcy⟩
  obtain ⟨z, hz, hzr⟩ := Relation.TransGen.head'_iff.mp hcy
  obtain ⟨hw1, hz1⟩ := hedge w z hz
  rw [hz1] at hzr
  rw [hw1] at hzr
  rcases Relation.ReflTransGen.cases_head hzr with heq | ⟨c, hc, _⟩
  · exact absurd heq (by decide)
  · obtain ⟨hc1, _⟩ := hedge _ _ hc
    exact absurd hc1 (by decide)

lemma cfgCircular_hasCycle : HasCycle (buildGraph cfgCircular) := by
  have h1 : Edge (buildGraph cfgCircular) "a:build" "b:build" := by
    show ("b:build" : String) ∈ depsOf (buildGraph cfgCircular) "a:build"
    decide
  have h2 : Edge (buildGraph cfgCircular) "b:build" "a:build" := by
    show ("a:build" : String) ∈ depsOf (buildGraph cfgCircular) "b:build"
    decide
  exact ⟨"a:build", Relation.TransGen.head h1 (Relation.TransGen.single h2)⟩

/-- C1 (amended): an acyclic configuration produces zero circular-dependency
errors (other error kinds may still occur); a configuration whose dependency
graph has a cycle produces at least one `Circular dependency detected` error
whose message is an edge chain leading from the first repeated node back to
itself; Scenario 2's self-cycle is reported verbatim. -/
theorem validate_cycle_reporting (cfg : Config) :
    (¬ HasCycle (buildGraph cfg) → cycleErrors (buildGraph cfg) = []) ∧
    (HasCycle (buildGraph cfg) →
      ∃ msg ∈ cycleErrors (buildGraph cfg), ∃ c w,
        msg = "Circular dependency detected: " ++ String.intercalate " -> " c ∧
        2 ≤ c.length ∧ c.head? = some w ∧ c.getLast? = some w ∧
        List.Chain' (Edge (buildGraph cfg)) c) ∧
    validate_command_dependencies cfgSelfCycle =
      ["Circular dependency detected: a:deploy -> a:deploy"] := by
  refine ⟨?_, ?_, rfl⟩
  · intro hac
    rw [cycleErrors, List.filterMap_eq_nil_iff]
    intro n _
    cases ho : detect_cycle (buildGraph cfg) n with
    | none => rfl
    | some s =>
      obtain ⟨c, w, _, _, _, _, _, hcy, _⟩ := detect_cycle_sound _ n s ho
      exact absurd ⟨w, hcy⟩ hac
  · rintro ⟨w, hcy⟩
    have hw : w ∈ (buildGraph cfg).map Prod.fst := by
      obtain ⟨z, hz, _⟩ := Relation.TransGen.head'_iff.mp hcy
      refine depsOf_ne_nil_key _ w (fun hnil => ?_)
      rw [Edge, hnil] at hz
      exact absurd hz (List.not_mem_nil z)
    have hreach : CycleReachable (buildGraph cfg) w := ⟨w, Relation.ReflTransGen.refl, hcy⟩
    have hsome : (detect_cycle (buildGraph cfg) w).isSome = true :=
      (detect_cycle_isSome_iff _ w hw).mpr hreach
    obtain ⟨s, hs⟩ := Option.isSome_iff_exists.mp hsome
    obtain ⟨c, w', hmsg, hlen, hh, hl, hch, _, _⟩ := detect_cycle_sound _ w s hs
    refine ⟨"Circular dependency detected: " ++ s, ?_, c, w', ?_, hlen, hh, hl, hch⟩
    · rw [cycleErrors]
      exact List.mem_filterMap.mpr ⟨w, hw, by rw [hs]; rfl⟩
    · rw [hmsg]

/-- Witness for C1: the acyclic part at `cfgMiss`, the cyclic part at the
circular test configuration of validation.rs. -/
theorem validate_cycle_reporting_witness :
    cycleErrors (buildGraph cfgMiss) = [] ∧
    (∃ msg ∈ cycleErrors (buildGraph cfgCircular), ∃ c w,
      msg = "Circular dependency detected: " ++ String.intercalate " -> " c ∧
      2 ≤ c.length ∧ c.head? = some w ∧ c.getLast? = some w ∧
      List.Chain' (Edge (buildGraph cfgCircular)) c) :=
  ⟨(validate_cycle_reporting cfgMiss).1 cfgMiss_acyclic,
   (validate_cycle_reporting cfgCircular).2.1 cfgCircular_hasCycle⟩

/-- Counterexample for C1 as stated: `cfgMiss`'s dependency graph is acyclic,
yet `validate_command_dependencies` reports a (non-circular) error, so an
acyclic configuration does not validate with zero errors. -/
theorem validate_zero_errors_counterexample :
    ¬ HasCycle (buildGraph cfgMiss) ∧ validate_command_dependencies cfgMiss ≠ [] :=
  ⟨cfgMiss_acyclic, by decide⟩

/-- C10: one `Circular dependency detected` error is emitted per graph node
from which a cycle is reachable (`detect_cycle` succeeds from exactly those
start nodes); the two-node cycle yields two errors (one rotation per start
node) and an outside node that reaches the cycle contributes a third. -/
theorem cycle_error_per_reaching_node :
    (∀ (g : List (String × List String)) (n : String), n ∈ g.map Prod.fst →
      ((detect_cycle g n).isSome = true ↔ CycleReachable g n)) ∧
    (∀ g : List (String × List String), (cycleErrors g).length =
      ((g.map Prod.fst).filter (fun n => (detect_cycle g n).isSome)).length) ∧
    cycleErrors gAB =
      ["Circular dependency detected: a:build -> b:build -> a:build",
       "Circular dependency detected: b:build -> a:build -> b:build"] ∧
    cycleErrors gCAB =
      ["Circular dependency detected: a:build -> b:build -> a:build",
       "Circular dependency detected: a:build -> b:build -> a:build",
       "Circular dependency detected: b:build -> a:build -> b:build"] := by
  refine ⟨?_, ?_, rfl, rfl⟩
  · intro g n hn
    exact detect_cycle_isSome_iff g n hn
  · intro g
    rw [cycleErrors, length_filterMap_isSome]
    refine congrArg List.length (List.filter_congr ?_)
    intro n _
    simp

/-- Witness for C10: from `a:build` in the two-node cycle a cycle is
reachable, and `detect_cycle` indeed succeeds there. -/
theorem cycle_error_per_reaching_node_witness :
    (detect_cycle gAB "a:build").isSome = true := by
  have h1 : Edge gAB "a:build" "b:build" := by
    show ("b:build" : String) ∈ depsOf gAB "a:build"
    decide
  have h2 : Edge gAB "b:build" "a:build" := by
    show ("a:build" : String) ∈ depsOf gAB "b:build"
    decide
  exact (cycle_error_per_reaching_node.1 gAB "a:build" (by decide)).mpr
    ⟨"a:build", Relation.ReflTransGen.refl,
      Relation.TransGen.head h1 (Relation.TransGen.single h2)⟩
